import Mathlib

/-!
Verification of the SuWidgets waterfall core (`src/GLWaterfall.h`).

The C++ class `GLLine` is a `std::vector<float>` holding a max/mean
mip-pyramid in one flat buffer (finest level first, each coarser level half
the length of the previous, one trailing padding cell).  Floats are embedded
as rationals (`ℚ`), `int`/`size_t` as `ℕ` (all the relevant quantities are
non-negative), and the in-place mutators become functions returning the new
line.  `x >> 1` on non-negative ints is embedded as `x / 2`, `res << 1` as
`res * 2`, `fmaxf` as `max`, and `ceil(log2 res)` as `Nat.clog 2 res`
(exact for the positive arguments the class is used with).

Bodies that live in `GLWaterfall.cpp` (not part of the sources at hand:
`assignMax`, `reduceMean`, `flushOneLine`) are modelled from the spec and
marked as such in their doc comments.
-/

/-- Embedding of the C++ `GLLine` (`src/GLWaterfall.h:51`): the inherited
`std::vector<float>` contents as `buf`, plus the `levels` field. -/
structure GLLine where
  levels : ℕ
  buf : List ℚ
deriving DecidableEq

/-- Embedding of `GLLine::allocationFor` (`src/GLWaterfall.h:61`): `res << 1`. -/
def GLLine.allocationFor (res : ℕ) : ℕ :=
  res * 2

/-- Embedding of `GLLine::resolutionFor` (`src/GLWaterfall.h:66`): `alloc >> 1`. -/
def GLLine.resolutionFor (alloc : ℕ) : ℕ :=
  alloc / 2

/-- Embedding of `GLLine::setResolution` (`src/GLWaterfall.h:71`): sets
`levels = ceil(log2 res) + 1`, resizes to `allocationFor res` and zeroes the
buffer (the inlined `assign(size(), 0)` of `GLLine::initialize`).  The
result does not depend on the previous state, so the method is embedded as a
constructor. -/
def GLLine.setResolution (res : ℕ) : GLLine :=
  { levels := Nat.clog 2 res + 1
    buf := List.replicate (GLLine.allocationFor res) 0 }

/-- Embedding of `GLLine::allocation` (`src/GLWaterfall.h:78`): `size()`. -/
def GLLine.allocation (L : GLLine) : ℕ :=
  L.buf.length

/-- Embedding of `GLLine::resolution` (`src/GLWaterfall.h:83`). -/
def GLLine.resolution (L : GLLine) : ℕ :=
  GLLine.resolutionFor L.allocation

/-- The loop of `GLLine::setValueMax` (`src/GLWaterfall.h:97`): one
recursive step per remaining level `l`; writes
`data[p + index] = fmaxf(val, data[p + index])`, then advances
`p += res; index >>= 1; res >>= 1`. -/
def setValueMaxAux (l p index res : ℕ) (val : ℚ) (buf : List ℚ) : List ℚ :=
  match l with
  | 0 => buf
  | l' + 1 =>
      setValueMaxAux l' (p + res) (index / 2) (res / 2) val
        (buf.set (p + index) (max val (buf.getD (p + index) 0)))

/-- Embedding of `GLLine::setValueMax` (`src/GLWaterfall.h:88`). -/
def GLLine.setValueMax (L : GLLine) (index : ℕ) (val : ℚ) : GLLine :=
  { levels := L.levels
    buf := setValueMaxAux L.levels 0 index L.resolution val L.buf }

/-- The loop of `GLLine::setValueMean` (`src/GLWaterfall.h:118`): writes
`data[p + index] += k * val`, then advances
`p += res; index >>= 1; res >>= 1; k *= .5f`. -/
def setValueMeanAux (l p index res : ℕ) (val k : ℚ) (buf : List ℚ) : List ℚ :=
  match l with
  | 0 => buf
  | l' + 1 =>
      setValueMeanAux l' (p + res) (index / 2) (res / 2) val (k * (1/2))
        (buf.set (p + index) (buf.getD (p + index) 0 + k * val))

/-- Embedding of `GLLine::setValueMean` (`src/GLWaterfall.h:108`); the weight `k` starts
at `1.0`. -/
def GLLine.setValueMean (L : GLLine) (index : ℕ) (val : ℚ) : GLLine :=
  { levels := L.levels
    buf := setValueMeanAux L.levels 0 index L.resolution val 1 L.buf }

/-- The buffer offsets read and written by the loops of
`GLLine::setValueMax` / `GLLine::setValueMean`: both access exactly
`p + index` at each step and advance `p`, `index`, `res` identically. -/
def valuePath (l p index res : ℕ) : List ℕ :=
  match l with
  | 0 => []
  | l' + 1 => (p + index) :: valuePath l' (p + res) (index / 2) (res / 2)

/-- Start offset of pyramid level `k` inside the flat buffer of a line of
resolution `res`: the value of the loop variable `p` after `k` iterations
(`p += res; res >>= 1` each time). -/
def pyrOffset (res : ℕ) : ℕ → ℕ
  | 0 => 0
  | k + 1 => pyrOffset res k + res / 2 ^ k

/-- The max-pyramid invariant for a buffer of resolution `2 ^ m` (spec
section 3): level `k+1` bin `i` equals the max of level `k` bins `2i` and
`2i+1`. -/
def pyramidMax (m : ℕ) (buf : List ℚ) : Prop :=
  ∀ k i, k < m → i < 2 ^ (m - (k + 1)) →
    buf.getD (pyrOffset (2 ^ m) (k + 1) + i) 0 =
      max (buf.getD (pyrOffset (2 ^ m) k + 2 * i) 0)
        (buf.getD (pyrOffset (2 ^ m) k + (2 * i + 1)) 0)

/-- Bin-by-bin ingestion: apply `setValueMax(i, values[i])` for each bin,
starting at bin `i0`. -/
def setAllMax (L : GLLine) (i0 : ℕ) : List ℚ → GLLine
  | [] => L
  | v :: vs => setAllMax (L.setValueMax i0 v) (i0 + 1) vs

/-- One max-reduction step between adjacent pyramid levels: each coarser bin
is the max of two consecutive finer bins. -/
def pairMax : List ℚ → List ℚ
  | a :: b :: rest => max a b :: pairMax rest
  | _ => []

/-- One mean-reduction step between adjacent pyramid levels. -/
def pairMean : List ℚ → List ℚ
  | a :: b :: rest => (a + b) / 2 :: pairMean rest
  | _ => []

/-- Concatenate `l` pyramid levels built bottom-up by max-reduction from the
given finest level. -/
def buildMax : ℕ → List ℚ → List ℚ
  | 0, _ => []
  | l + 1, cur => cur ++ buildMax l (pairMax cur)

/-- Concatenate `l` pyramid levels built bottom-up by mean-reduction. -/
def buildMean : ℕ → List ℚ → List ℚ
  | 0, _ => []
  | l + 1, cur => cur ++ buildMean l (pairMean cur)

/-- Modelled from the spec: the body of `GLLine::assignMax` is in
`GLWaterfall.cpp`, which is not among the sources at hand (the header only
declares it at `src/GLWaterfall.h:136`).  Per spec section 4.1 it
bulk-overwrites the finest level from an external array of exactly
`resolution` samples, then rebuilds all coarser levels bottom-up from
scratch; the trailing padding cell stays zero. -/
def GLLine.assignMax (L : GLLine) (values : List ℚ) : GLLine :=
  { levels := L.levels
    buf := buildMax L.levels values ++ [0] }

/-- Modelled from the spec: the body of `GLLine::reduceMean` is in
`GLWaterfall.cpp`, which is not among the sources at hand (the header only
declares it at `src/GLWaterfall.h:138`).  Per spec sections 4.1 and 8 it
ingests an external array of `length ≥ resolution` samples, each output bin
aggregating `length / resolution` contiguous input samples by arithmetic
mean, then rebuilds the pyramid. -/
def GLLine.reduceMean (L : GLLine) (values : List ℚ) : GLLine :=
  { levels := L.levels
    buf :=
      buildMean L.levels
        ((List.range L.resolution).map fun i =>
          ((values.drop (i * (values.length / L.resolution))).take
              (values.length / L.resolution)).sum /
            ((values.length / L.resolution : ℕ) : ℚ)) ++ [0] }

/-- Modelled from the spec: the texture ring of
`GLWaterfallOpenGLContext` (`src/GLWaterfall.h:144`), reduced to the state
that `flushOneLine` touches.  Row contents are abstracted as natural-number
labels; `rows j` is the label of the line last written at texture row `j`
(`0` when never written). -/
structure TextureRing where
  row : ℕ
  rowCount : ℕ
  rows : ℕ → ℕ

/-- Modelled from the spec: the body of
`GLWaterfallOpenGLContext::flushOneLine` is in `GLWaterfall.cpp`, which is
not among the sources at hand (the header only declares it at
`src/GLWaterfall.h:185`).  Per spec section 4.3 each commit writes one row
at cursor `row`, then `row = (row + 1) mod rowCount`; wrapping does not
erase other rows. -/
def TextureRing.flushOneLine (s : TextureRing) (line : ℕ) : TextureRing :=
  { row := (s.row + 1) % s.rowCount
    rowCount := s.rowCount
    rows := fun j => if j = s.row then line else s.rows j }

/-- Commit a sequence of rows one at a time. -/
def TextureRing.commitList (s : TextureRing) : List ℕ → TextureRing
  | [] => s
  | line :: rest => TextureRing.commitList (s.flushOneLine line) rest

/-- Embedding of the fields of `GLWaterfallOpenGLContext`
(`src/GLWaterfall.h:144`).  GPU objects (`QOpenGLBuffer`, textures, shaders,
the program) are opaque to `setMaxBlending`, so they are abstracted as
natural-number handles; `int` fields become `ℤ`, `float` fields become `ℚ`. -/
structure GLWaterfallOpenGLContext where
  m_vao : ℕ
  m_vbo : ℕ
  m_ibo : ℕ
  m_program : ℕ
  m_waterfall : ℕ
  m_palette : ℕ
  m_vertexShader : ℕ
  m_fragmentShader : ℕ
  m_history : List GLLine
  m_pool : List GLLine
  m_paletBuf : List ℕ
  m_firstAccum : Bool
  m_row : ℤ
  m_rowSize : ℤ
  m_rowCount : ℤ
  m_maxRowSize : ℤ
  m_useMaxBlending : Bool
  m : ℚ
  x0 : ℚ
  m_updatePalette : Bool
  c_x0 : ℚ
  c_x1 : ℚ
  m_zoom : ℚ
  m_width : ℤ
  m_height : ℤ

/-- `GLWaterfall::setMaxBlending` (`src/GLWaterfall.h:218`): the body is
`this->glCtx.m_useMaxBlending = val;`, embedded as the corresponding update
of the context. -/
def setMaxBlending (ctx : GLWaterfallOpenGLContext) (val : Bool) :
    GLWaterfallOpenGLContext :=
  { ctx with m_useMaxBlending := val }

/-! ### Basic list lemmas -/

theorem getD_set_self (l : List ℚ) (i : ℕ) (x : ℚ) (h : i < l.length) :
    (l.set i x).getD i 0 = x := by
  simp [List.getD_eq_getElem?_getD, List.getElem?_set, h]

theorem getD_set_ne (l : List ℚ) (i j : ℕ) (x : ℚ) (h : i ≠ j) :
    (l.set i x).getD j 0 = l.getD j 0 := by
  simp [List.getD_eq_getElem?_getD, List.getElem?_set, h]

/-! ### Pyramid offsets -/

theorem pyrOffset_succ (r k : ℕ) :
    pyrOffset r (k + 1) = pyrOffset r k + r / 2 ^ k := rfl

theorem pyrOffset_succ_left (r k : ℕ) :
    pyrOffset r (k + 1) = r + pyrOffset (r / 2) k := by
  induction k with
  | zero => simp [pyrOffset]
  | succ k ih =>
      rw [pyrOffset_succ, ih, pyrOffset_succ (r / 2) k, Nat.div_div_eq_div_mul,
        ← pow_succ']
      omega

theorem pyrOffset_mono (r : ℕ) : Monotone (pyrOffset r) :=
  monotone_nat_of_le_succ fun k => by rw [pyrOffset_succ]; exact Nat.le_add_right _ _

theorem pyrOffset_pow_succ (m k : ℕ) (hk : k ≤ m) :
    pyrOffset (2 ^ m) (k + 1) = pyrOffset (2 ^ m) k + 2 ^ (m - k) := by
  rw [pyrOffset_succ, Nat.pow_div hk (by norm_num)]

theorem pyrOffset_pow_eq (m k : ℕ) (h : k ≤ m + 1) :
    pyrOffset (2 ^ m) k = 2 ^ (m + 1) - 2 ^ (m + 1 - k) := by
  induction k with
  | zero => simp [pyrOffset]
  | succ k ih =>
      have hk : k ≤ m := by omega
      have h2 : (2 : ℕ) ^ (m + 1 - k) = 2 * 2 ^ (m - k) := by
        rw [← pow_succ']
        congr 1
        omega
      have h3 : (2 : ℕ) ^ (m - k) ≤ 2 ^ (m + 1) :=
        Nat.pow_le_pow_right (by norm_num) (by omega)
      have h4 : (2 : ℕ) ^ (m + 1 - k) ≤ 2 ^ (m + 1) :=
        Nat.pow_le_pow_right (by norm_num) (by omega)
      have hmk : m + 1 - (k + 1) = m - k := by omega
      rw [pyrOffset_pow_succ m k hk, ih (by omega), hmk]
      omega

theorem div_lt_pow_sub (m k index : ℕ) (hk : k ≤ m) (hidx : index < 2 ^ m) :
    index / 2 ^ k < 2 ^ (m - k) := by
  rw [Nat.div_lt_iff_lt_mul (pow_pos (by norm_num) k)]
  calc index < 2 ^ m := hidx
    _ = 2 ^ (m - k) * 2 ^ k := by
        rw [← pow_add]
        congr 1
        omega

theorem pos_lt_pyrOffset_succ (m k index : ℕ) (hk : k ≤ m)
    (hidx : index < 2 ^ m) :
    pyrOffset (2 ^ m) k + index / 2 ^ k < pyrOffset (2 ^ m) (k + 1) := by
  have h1 := pyrOffset_pow_succ m k hk
  have h2 := div_lt_pow_sub m k index hk hidx
  omega

theorem level_pos_inj (m j k t u : ℕ) (hj : j ≤ m) (hk : k ≤ m)
    (ht : t < 2 ^ (m - j)) (hu : u < 2 ^ (m - k))
    (h : pyrOffset (2 ^ m) j + t = pyrOffset (2 ^ m) k + u) : j = k ∧ t = u := by
  have key : ∀ a b ta ub, a ≤ m → ta < 2 ^ (m - a) → a < b →
      pyrOffset (2 ^ m) a + ta < pyrOffset (2 ^ m) b + ub := by
    intro a b ta ub ha hta hab
    have h1 := pyrOffset_pow_succ m a ha
    have h2 : pyrOffset (2 ^ m) (a + 1) ≤ pyrOffset (2 ^ m) b :=
      pyrOffset_mono _ (by omega)
    omega
  rcases lt_trichotomy j k with hlt | heq | hgt
  · exact absurd h (by have := key j k t u hj ht hlt; omega)
  · subst heq
    exact ⟨rfl, by omega⟩
  · exact absurd h (by have := key k j u t hk hu hgt; omega)

/-! ### The access path of `setValueMax` / `setValueMean` -/

theorem valuePath_succ (l p i r : ℕ) :
    valuePath (l + 1) p i r = (p + i) :: valuePath l (p + r) (i / 2) (r / 2) := rfl

theorem valuePath_length : ∀ l p i r, (valuePath l p i r).length = l := by
  intro l
  induction l with
  | zero => intro p i r; rfl
  | succ l ih => intro p i r; simp [valuePath_succ, ih]

theorem valuePath_eq_map : ∀ l p i r, valuePath l p i r =
    (List.range l).map fun k => p + (pyrOffset r k + i / 2 ^ k) := by
  intro l
  induction l with
  | zero => intro p i r; rfl
  | succ l ih =>
      intro p i r
      rw [valuePath_succ, List.range_succ_eq_map, List.map_cons, List.map_map, ih]
      congr 1
      · simp [pyrOffset]
      · apply List.map_congr_left
        intro k _
        show p + r + (pyrOffset (r / 2) k + i / 2 / 2 ^ k) =
          p + (pyrOffset r (k + 1) + i / 2 ^ (k + 1))
        rw [pyrOffset_succ_left, Nat.div_div_eq_div_mul, ← pow_succ']
        omega

theorem mem_valuePath_iff (m index q : ℕ) :
    q ∈ valuePath (m + 1) 0 index (2 ^ m) ↔
      ∃ k, k ≤ m ∧ q = pyrOffset (2 ^ m) k + index / 2 ^ k := by
  rw [valuePath_eq_map]
  simp only [List.mem_map, List.mem_range, zero_add]
  constructor
  · rintro ⟨k, hk, rfl⟩
    exact ⟨k, by omega, rfl⟩
  · rintro ⟨k, hk, rfl⟩
    exact ⟨k, by omega, rfl⟩

theorem valuePath_getD (m index k : ℕ) (hk : k < m + 1) :
    (valuePath (m + 1) 0 index (2 ^ m)).getD k 0 =
      pyrOffset (2 ^ m) k + index / 2 ^ k := by
  rw [valuePath_eq_map,
    List.getD_eq_getElem _ _ (by simpa [valuePath_eq_map] using
      (valuePath_length (m + 1) 0 index (2 ^ m)).symm ▸ hk)]
  simp

theorem valuePath_bound (m index : ℕ) (hidx : index < 2 ^ m) :
    ∀ a ∈ valuePath (m + 1) 0 index (2 ^ m), a < 2 * 2 ^ m - 1 := by
  intro a ha
  rw [mem_valuePath_iff] at ha
  obtain ⟨k, hk, rfl⟩ := ha
  have h1 := pos_lt_pyrOffset_succ m k index hk hidx
  have h2 : pyrOffset (2 ^ m) (k + 1) ≤ pyrOffset (2 ^ m) (m + 1) :=
    pyrOffset_mono _ (by omega)
  have h3 : pyrOffset (2 ^ m) (m + 1) = 2 ^ (m + 1) - 1 := by
    simpa using pyrOffset_pow_eq m (m + 1) le_rfl
  have h4 : (2 : ℕ) ^ (m + 1) = 2 * 2 ^ m := by rw [pow_succ']
  omega

theorem valuePath_pairwise (m index : ℕ) (hidx : index < 2 ^ m) :
    (valuePath (m + 1) 0 index (2 ^ m)).Pairwise (· < ·) := by
  rw [valuePath_eq_map, List.pairwise_map]
  apply List.Pairwise.imp_of_mem ?_ (List.pairwise_lt_range (m + 1))
  intro a b ha hb hab
  simp only [List.mem_range] at ha hb
  have h1 := pos_lt_pyrOffset_succ m a index (by omega) hidx
  have h2 : pyrOffset (2 ^ m) (a + 1) ≤ pyrOffset (2 ^ m) b :=
    pyrOffset_mono _ (by omega)
  have h3 : pyrOffset (2 ^ m) b ≤ pyrOffset (2 ^ m) b + index / 2 ^ b :=
    Nat.le_add_right _ _
  omega

theorem valuePath_pairwise_ne (m index : ℕ) (hidx : index < 2 ^ m) :
    (valuePath (m + 1) 0 index (2 ^ m)).Pairwise (· ≠ ·) :=
  (valuePath_pairwise m index hidx).imp Nat.ne_of_lt

/-! ### Pointwise characterization of the update loops -/

theorem setValueMaxAux_succ (l p i r : ℕ) (v : ℚ) (buf : List ℚ) :
    setValueMaxAux (l + 1) p i r v buf =
      setValueMaxAux l (p + r) (i / 2) (r / 2) v
        (buf.set (p + i) (max v (buf.getD (p + i) 0))) := rfl

theorem setValueMeanAux_succ (l p i r : ℕ) (v k : ℚ) (buf : List ℚ) :
    setValueMeanAux (l + 1) p i r v k buf =
      setValueMeanAux l (p + r) (i / 2) (r / 2) v (k * (1/2))
        (buf.set (p + i) (buf.getD (p + i) 0 + k * v)) := rfl

theorem setValueMaxAux_length : ∀ l p i r (v : ℚ) (buf : List ℚ),
    (setValueMaxAux l p i r v buf).length = buf.length := by
  intro l
  induction l with
  | zero => intro p i r v buf; rfl
  | succ l ih =>
      intro p i r v buf
      rw [setValueMaxAux_succ, ih, List.length_set]

theorem setValueMeanAux_length : ∀ l p i r (v k : ℚ) (buf : List ℚ),
    (setValueMeanAux l p i r v k buf).length = buf.length := by
  intro l
  induction l with
  | zero => intro p i r v k buf; rfl
  | succ l ih =>
      intro p i r v k buf
      rw [setValueMeanAux_succ, ih, List.length_set]

theorem setValueMaxAux_getD : ∀ l p i r (v : ℚ) (buf : List ℚ) (q : ℕ),
    (∀ a ∈ valuePath l p i r, a < buf.length) →
    (setValueMaxAux l p i r v buf).getD q 0 =
      if q ∈ valuePath l p i r then max v (buf.getD q 0) else buf.getD q 0 := by
  intro l
  induction l with
  | zero =>
      intro p i r v buf q _
      simp [setValueMaxAux, valuePath]
  | succ l ih =>
      intro p i r v buf q hb
      have ha : p + i < buf.length := hb _ (by rw [valuePath_succ]; exact List.mem_cons_self _ _)
      rw [setValueMaxAux_succ,
        ih _ _ _ _ _ q (by
          intro a hain
          rw [List.length_set]
          exact hb a (by rw [valuePath_succ]; exact List.mem_cons_of_mem _ hain))]
      by_cases hq1 : q ∈ valuePath l (p + r) (i / 2) (r / 2)
      · rw [if_pos hq1, if_pos (by rw [valuePath_succ]; exact List.mem_cons_of_mem _ hq1)]
        by_cases hq2 : q = p + i
        · subst hq2
          rw [getD_set_self _ _ _ ha, ← max_assoc, max_self]
        · rw [getD_set_ne _ _ _ _ (fun h => hq2 h.symm)]
      · rw [if_neg hq1]
        by_cases hq2 : q = p + i
        · subst hq2
          rw [getD_set_self _ _ _ ha,
            if_pos (by rw [valuePath_succ]; exact List.mem_cons_self _ _)]
        · rw [getD_set_ne _ _ _ _ (fun h => hq2 h.symm),
            if_neg (by
              rw [valuePath_succ, List.mem_cons]
              push_neg
              exact ⟨hq2, hq1⟩)]

theorem setValueMeanAux_getD_notMem : ∀ l p i r (v k : ℚ) (buf : List ℚ) (q : ℕ),
    q ∉ valuePath l p i r →
    (setValueMeanAux l p i r v k buf).getD q 0 = buf.getD q 0 := by
  intro l
  induction l with
  | zero => intro p i r v k buf q _; rfl
  | succ l ih =>
      intro p i r v k buf q hq
      rw [valuePath_succ, List.mem_cons] at hq
      push_neg at hq
      rw [setValueMeanAux_succ, ih _ _ _ _ _ _ _ hq.2,
        getD_set_ne _ _ _ _ (fun h => hq.1 h.symm)]

theorem setValueMeanAux_getD_elem : ∀ l p i r (v k : ℚ) (buf : List ℚ) (j : ℕ),
    (valuePath l p i r).Pairwise (· ≠ ·) →
    (∀ a ∈ valuePath l p i r, a < buf.length) →
    j < l →
    (setValueMeanAux l p i r v k buf).getD ((valuePath l p i r).getD j 0) 0 =
      buf.getD ((valuePath l p i r).getD j 0) 0 + k * (1/2) ^ j * v := by
  intro l
  induction l with
  | zero => intro p i r v k buf j _ _ hj; omega
  | succ l ih =>
      intro p i r v k buf j hnd hb hj
      rw [valuePath_succ] at hnd hb ⊢
      rw [List.pairwise_cons] at hnd
      have ha : p + i < buf.length := hb _ (List.mem_cons_self _ _)
      rw [setValueMeanAux_succ]
      match j with
      | 0 =>
          rw [List.getD_cons_zero]
          have hnotmem : p + i ∉ valuePath l (p + r) (i / 2) (r / 2) := by
            intro hmem
            exact hnd.1 _ hmem rfl
          rw [setValueMeanAux_getD_notMem _ _ _ _ _ _ _ _ hnotmem,
            getD_set_self _ _ _ ha]
          ring
      | j' + 1 =>
          rw [List.getD_cons_succ]
          have hjl : j' < l := by omega
          have helem : (valuePath l (p + r) (i / 2) (r / 2)).getD j' 0 ∈
              valuePath l (p + r) (i / 2) (r / 2) := by
            rw [List.getD_eq_getElem _ _ (by rw [valuePath_length]; omega)]
            exact List.getElem_mem _
          have hne : p + i ≠ (valuePath l (p + r) (i / 2) (r / 2)).getD j' 0 :=
            hnd.1 _ helem
          rw [ih _ _ _ _ _ _ _ hnd.2
              (by
                intro a hain
                rw [List.length_set]
                exact hb a (List.mem_cons_of_mem _ hain))
              hjl,
            getD_set_ne _ _ _ _ hne]
          ring

/-! ### Shared consequences for `GLLine` -/

theorem resolution_eq_pow (L : GLLine) (m : ℕ) (h : L.buf.length = 2 * 2 ^ m) :
    L.resolution = 2 ^ m := by
  simp only [GLLine.resolution, GLLine.resolutionFor, GLLine.allocation, h]
  omega

theorem setValueMax_buf_length (L : GLLine) (index : ℕ) (val : ℚ) :
    (L.setValueMax index val).buf.length = L.buf.length :=
  setValueMaxAux_length L.levels 0 index L.resolution val L.buf

theorem setValueMean_buf_length (L : GLLine) (index : ℕ) (val : ℚ) :
    (L.setValueMean index val).buf.length = L.buf.length :=
  setValueMeanAux_length L.levels 0 index L.resolution val 1 L.buf

theorem setValueMax_getD_char (m : ℕ) (L : GLLine) (index : ℕ) (val : ℚ)
    (hlen : L.buf.length = 2 * 2 ^ m) (hlev : L.levels = m + 1)
    (hidx : index < 2 ^ m) (q : ℕ) :
    (L.setValueMax index val).buf.getD q 0 =
      if q ∈ valuePath (m + 1) 0 index (2 ^ m) then max val (L.buf.getD q 0)
      else L.buf.getD q 0 := by
  have hbounds : ∀ a ∈ valuePath (m + 1) 0 index (2 ^ m), a < L.buf.length := by
    intro a ha
    have h1 := valuePath_bound m index hidx a ha
    have h2 : (0 : ℕ) < 2 ^ m := pow_pos (by norm_num) m
    omega
  show (setValueMaxAux L.levels 0 index L.resolution val L.buf).getD q 0 = _
  rw [hlev, resolution_eq_pow L m hlen]
  exact setValueMaxAux_getD (m + 1) 0 index (2 ^ m) val L.buf q hbounds

theorem index_mem_valuePath (m index : ℕ) :
    index ∈ valuePath (m + 1) 0 index (2 ^ m) :=
  (mem_valuePath_iff m index index).mpr ⟨0, Nat.zero_le m, by simp [pyrOffset]⟩

/-! ### Claim theorems -/

/-- Claim C3: for every power-of-two `res > 0`, after `setResolution(res)` the
buffer has length exactly `2 * res`, every element is `0`, `levels` equals
`⌈log2 res⌉ + 1` (which is `m + 1` for `res = 2 ^ m`), and `resolution()`
returns `res`. -/
theorem setResolution_spec (m : ℕ) :
    (GLLine.setResolution (2 ^ m)).buf.length = 2 * 2 ^ m ∧
    (∀ x ∈ (GLLine.setResolution (2 ^ m)).buf, x = 0) ∧
    (GLLine.setResolution (2 ^ m)).levels = Nat.clog 2 (2 ^ m) + 1 ∧
    (GLLine.setResolution (2 ^ m)).levels = m + 1 ∧
    (GLLine.setResolution (2 ^ m)).resolution = 2 ^ m := by
  refine ⟨?_, ?_, rfl, ?_, ?_⟩
  · simp only [GLLine.setResolution, GLLine.allocationFor, List.length_replicate]
    omega
  · intro x hx
    simp only [GLLine.setResolution] at hx
    exact List.eq_of_mem_replicate hx
  · simp only [GLLine.setResolution]
    rw [Nat.clog_pow 2 m (by norm_num)]
  · simp only [GLLine.setResolution, GLLine.resolution, GLLine.resolutionFor,
      GLLine.allocation, GLLine.allocationFor, List.length_replicate]
    omega

/-- Claim C7, counterexample: `setResolution(3)` — with `3` not a power of
two — completes normally, producing a well-defined (zeroed, length-6) line;
the code contains no assertion or precondition check at all. -/
theorem setResolution_counterexample :
    (¬ ∃ k : ℕ, (3 : ℕ) = 2 ^ k) ∧
    (GLLine.setResolution 3).buf = List.replicate 6 0 ∧
    (GLLine.setResolution 3).resolution = 3 := by
  refine ⟨?_, rfl, rfl⟩
  rintro ⟨k, hk⟩
  match k, hk with
  | 0, hk => simp at hk
  | 1, hk => simp at hk
  | k + 2, hk =>
      have h4 : (4 : ℕ) ≤ 2 ^ (k + 2) := by
        calc (4 : ℕ) = 2 ^ 2 := rfl
          _ ≤ 2 ^ (k + 2) := Nat.pow_le_pow_right (by norm_num) (by omega)
      omega

/-- Claim C7 (amended): `setResolution` performs no validation of its
argument.  For every `res > 0` — power of two or not — it completes
normally, setting `levels = ⌈log2 res⌉ + 1` and a zeroed buffer of length
`2 * res`; an invalid (non-power-of-two) `res` therefore yields a silently
malformed line rather than an assertion failure. -/
theorem setResolution_no_validation (res : ℕ) (h : 0 < res) :
    (GLLine.setResolution res).buf = List.replicate (2 * res) 0 ∧
    (GLLine.setResolution res).levels = Nat.clog 2 res + 1 ∧
    (GLLine.setResolution res).resolution = res := by
  refine ⟨?_, rfl, ?_⟩
  · simp only [GLLine.setResolution, GLLine.allocationFor]
    rw [Nat.mul_comm]
  · simp only [GLLine.setResolution, GLLine.resolution, GLLine.resolutionFor,
      GLLine.allocation, GLLine.allocationFor, List.length_replicate]
    omega

theorem setResolution_no_validation_witness :
    0 < 5 ∧
    ((GLLine.setResolution 5).buf = List.replicate (2 * 5) 0 ∧
      (GLLine.setResolution 5).levels = Nat.clog 2 5 + 1 ∧
      (GLLine.setResolution 5).resolution = 5) :=
  ⟨by decide, setResolution_no_validation 5 (by decide)⟩

/-- Claim C10: `setMaxBlending(b)` sets `m_useMaxBlending` to `b` and leaves
every other field of the context — GPU handles, history, pool, palette
buffer, accumulation flag, texture geometry, level adjustment and geometric
parameters — unchanged. -/
theorem setMaxBlending_frame_effect (ctx : GLWaterfallOpenGLContext) (b : Bool) :
    (setMaxBlending ctx b).m_useMaxBlending = b ∧
    (setMaxBlending ctx b).m_vao = ctx.m_vao ∧
    (setMaxBlending ctx b).m_vbo = ctx.m_vbo ∧
    (setMaxBlending ctx b).m_ibo = ctx.m_ibo ∧
    (setMaxBlending ctx b).m_program = ctx.m_program ∧
    (setMaxBlending ctx b).m_waterfall = ctx.m_waterfall ∧
    (setMaxBlending ctx b).m_palette = ctx.m_palette ∧
    (setMaxBlending ctx b).m_vertexShader = ctx.m_vertexShader ∧
    (setMaxBlending ctx b).m_fragmentShader = ctx.m_fragmentShader ∧
    (setMaxBlending ctx b).m_history = ctx.m_history ∧
    (setMaxBlending ctx b).m_pool = ctx.m_pool ∧
    (setMaxBlending ctx b).m_paletBuf = ctx.m_paletBuf ∧
    (setMaxBlending ctx b).m_firstAccum = ctx.m_firstAccum ∧
    (setMaxBlending ctx b).m_row = ctx.m_row ∧
    (setMaxBlending ctx b).m_rowSize = ctx.m_rowSize ∧
    (setMaxBlending ctx b).m_rowCount = ctx.m_rowCount ∧
    (setMaxBlending ctx b).m_maxRowSize = ctx.m_maxRowSize ∧
    (setMaxBlending ctx b).m = ctx.m ∧
    (setMaxBlending ctx b).x0 = ctx.x0 ∧
    (setMaxBlending ctx b).m_updatePalette = ctx.m_updatePalette ∧
    (setMaxBlending ctx b).c_x0 = ctx.c_x0 ∧
    (setMaxBlending ctx b).c_x1 = ctx.c_x1 ∧
    (setMaxBlending ctx b).m_zoom = ctx.m_zoom ∧
    (setMaxBlending ctx b).m_width = ctx.m_width ∧
    (setMaxBlending ctx b).m_height = ctx.m_height :=
  ⟨rfl, rfl, rfl, rfl, rfl, rfl, rfl, rfl, rfl, rfl, rfl, rfl, rfl, rfl, rfl,
    rfl, rfl, rfl, rfl, rfl, rfl, rfl, rfl, rfl, rfl⟩

theorem commitList_row : ∀ (ls : List ℕ) (s : TextureRing),
    0 < s.rowCount → s.row < s.rowCount →
    (s.commitList ls).row = (s.row + ls.length) % s.rowCount ∧
    (s.commitList ls).row < s.rowCount := by
  intro ls
  induction ls with
  | nil =>
      intro s hc hrow
      exact ⟨by simpa [TextureRing.commitList] using (Nat.mod_eq_of_lt hrow).symm, hrow⟩
  | cons x ls ih =>
      intro s hc hrow
      have hstep : (s.flushOneLine x).row = (s.row + 1) % s.rowCount := rfl
      have hrc : (s.flushOneLine x).rowCount = s.rowCount := rfl
      have h1 : (s.flushOneLine x).row < s.rowCount := by
        rw [hstep]
        exact Nat.mod_lt _ hc
      obtain ⟨ha, hb⟩ := ih (s.flushOneLine x) hc h1
      constructor
      · show (TextureRing.commitList (s.flushOneLine x) ls).row = _
        rw [ha, hstep, hrc, Nat.mod_add_mod, List.length_cons]
        congr 1
        omega
      · exact hb

/-- Claim C6: every commit writes one row at the current cursor and advances
`row = (row + 1) mod rowCount`: after committing `n` rows the cursor equals
`(row + n) mod rowCount` (so `n mod rowCount` from cursor 0) and always
stays in `[0, rowCount)`; concretely, with `rowCount = 3`, committing the
five rows `1..5` from cursor 0 leaves the cursor at `5 mod 3 = 2`, with the
rows written by the first two commits overwritten (rows 0 and 1 now hold
commits 4 and 5, row 2 still holds commit 3). -/
theorem commit_cursor_spec (ls : List ℕ) (s : TextureRing)
    (hc : 0 < s.rowCount) (hrow : s.row < s.rowCount) :
    (s.commitList ls).row = (s.row + ls.length) % s.rowCount ∧
    (s.commitList ls).row < s.rowCount ∧
    (TextureRing.commitList ⟨0, 3, fun _ => 0⟩ [1, 2, 3, 4, 5]).row = 2 ∧
    (TextureRing.commitList ⟨0, 3, fun _ => 0⟩ [1, 2, 3, 4, 5]).rows 0 = 4 ∧
    (TextureRing.commitList ⟨0, 3, fun _ => 0⟩ [1, 2, 3, 4, 5]).rows 1 = 5 ∧
    (TextureRing.commitList ⟨0, 3, fun _ => 0⟩ [1, 2, 3, 4, 5]).rows 2 = 3 := by
  obtain ⟨h1, h2⟩ := commitList_row ls s hc hrow
  exact ⟨h1, h2, by decide, by decide, by decide, by decide⟩

theorem commit_cursor_spec_witness :
    0 < (3 : ℕ) ∧ 0 < (3 : ℕ) ∧
    ((TextureRing.commitList ⟨0, 3, fun _ => 0⟩ [1, 2, 3, 4, 5]).row =
        (0 + (5 : ℕ)) % 3 ∧
      (TextureRing.commitList ⟨0, 3, fun _ => 0⟩ [1, 2, 3, 4, 5]).row < 3 ∧
      (TextureRing.commitList ⟨0, 3, fun _ => 0⟩ [1, 2, 3, 4, 5]).row = 2 ∧
      (TextureRing.commitList ⟨0, 3, fun _ => 0⟩ [1, 2, 3, 4, 5]).rows 0 = 4 ∧
      (TextureRing.commitList ⟨0, 3, fun _ => 0⟩ [1, 2, 3, 4, 5]).rows 1 = 5 ∧
      (TextureRing.commitList ⟨0, 3, fun _ => 0⟩ [1, 2, 3, 4, 5]).rows 2 = 3) :=
  ⟨by decide, by decide,
    commit_cursor_spec [1, 2, 3, 4, 5] ⟨0, 3, fun _ => 0⟩ (by decide) (by decide)⟩

/-- Claim C8: for a line of power-of-two resolution `2 ^ m` and any
`index < 2 ^ m`, every buffer offset accessed by the loops of
`setValueMax(index, val)` and `setValueMean(index, val)` (the offsets are
`valuePath levels 0 index resolution`, one per level) lies in
`[0, 2 * 2 ^ m)`, i.e. strictly inside the `2 × resolution`-element buffer;
both operations are total and leave the buffer length unchanged. -/
theorem setValue_access_bounds (m index : ℕ) (L : GLLine) (val : ℚ)
    (hlen : L.buf.length = 2 * 2 ^ m) (hlev : L.levels = m + 1)
    (hidx : index < 2 ^ m) :
    (∀ a ∈ valuePath L.levels 0 index L.resolution, a < L.buf.length) ∧
    (L.setValueMax index val).buf.length = L.buf.length ∧
    (L.setValueMean index val).buf.length = L.buf.length := by
  refine ⟨?_, setValueMax_buf_length L index val, setValueMean_buf_length L index val⟩
  rw [hlev, resolution_eq_pow L m hlen, hlen]
  intro a ha
  have h1 := valuePath_bound m index hidx a ha
  have h2 : (0 : ℕ) < 2 ^ m := pow_pos (by norm_num) m
  omega

theorem setValue_access_bounds_witness :
    (⟨3, List.replicate 8 0⟩ : GLLine).buf.length = 2 * 2 ^ 2 ∧
    (⟨3, List.replicate 8 0⟩ : GLLine).levels = 2 + 1 ∧
    3 < 2 ^ 2 ∧
    ((⟨3, List.replicate 8 0⟩ : GLLine).setValueMax 3 5).buf.length =
      (⟨3, List.replicate 8 0⟩ : GLLine).buf.length ∧
    ((⟨3, List.replicate 8 0⟩ : GLLine).setValueMean 3 5).buf.length =
      (⟨3, List.replicate 8 0⟩ : GLLine).buf.length :=
  ⟨by decide, by decide, by decide,
    (setValue_access_bounds 2 3 ⟨3, List.replicate 8 0⟩ 5 (by decide) (by decide)
        (by decide)).2.1,
    (setValue_access_bounds 2 3 ⟨3, List.replicate 8 0⟩ 5 (by decide) (by decide)
        (by decide)).2.2⟩

/-- Claim C9: `setValueMax(index, val)` and `setValueMean(index, val)` modify
only the `levels`-many ancestor cells of bin `index` (cell
`pyrOffset k + index >> k` of level `k`): every offset `q` that is not such
an ancestor cell keeps its value, and the last buffer cell (offset
`2 * 2 ^ m - 1`, the padding cell of the layout comment) is never an
ancestor cell, hence never written — it keeps whatever value it had (and so
stays `0` after initialization). -/
theorem setValue_frame_effect (m index q : ℕ) (L : GLLine) (val : ℚ)
    (hlen : L.buf.length = 2 * 2 ^ m) (hlev : L.levels = m + 1)
    (hidx : index < 2 ^ m)
    (hq : ∀ k, k ≤ m → q ≠ pyrOffset (2 ^ m) k + index / 2 ^ k) :
    (L.setValueMax index val).buf.getD q 0 = L.buf.getD q 0 ∧
    (L.setValueMean index val).buf.getD q 0 = L.buf.getD q 0 ∧
    (∀ k, k ≤ m → 2 * 2 ^ m - 1 ≠ pyrOffset (2 ^ m) k + index / 2 ^ k) := by
  have hnotmem : q ∉ valuePath (m + 1) 0 index (2 ^ m) := by
    rw [mem_valuePath_iff]
    rintro ⟨k, hk, rfl⟩
    exact hq k hk rfl
  refine ⟨?_, ?_, ?_⟩
  · rw [setValueMax_getD_char m L index val hlen hlev hidx q, if_neg hnotmem]
  · show (setValueMeanAux L.levels 0 index L.resolution val 1 L.buf).getD q 0 = _
    rw [hlev, resolution_eq_pow L m hlen]
    exact setValueMeanAux_getD_notMem (m + 1) 0 index (2 ^ m) val 1 L.buf q hnotmem
  · intro k hk hlast
    have hmem : pyrOffset (2 ^ m) k + index / 2 ^ k ∈
        valuePath (m + 1) 0 index (2 ^ m) :=
      (mem_valuePath_iff m index _).mpr ⟨k, hk, rfl⟩
    have := valuePath_bound m index hidx _ hmem
    omega

theorem setValue_frame_effect_witness :
    (⟨3, [1, 2, 3, 4, 5, 6, 7, 8]⟩ : GLLine).buf.length = 2 * 2 ^ 2 ∧
    (⟨3, [1, 2, 3, 4, 5, 6, 7, 8]⟩ : GLLine).levels = 2 + 1 ∧
    3 < 2 ^ 2 ∧
    (∀ k, k ≤ 2 → (7 : ℕ) ≠ pyrOffset (2 ^ 2) k + 3 / 2 ^ k) ∧
    (((⟨3, [1, 2, 3, 4, 5, 6, 7, 8]⟩ : GLLine).setValueMax 3 9).buf.getD 7 0 =
        (⟨3, [1, 2, 3, 4, 5, 6, 7, 8]⟩ : GLLine).buf.getD 7 0 ∧
      ((⟨3, [1, 2, 3, 4, 5, 6, 7, 8]⟩ : GLLine).setValueMean 3 9).buf.getD 7 0 =
        (⟨3, [1, 2, 3, 4, 5, 6, 7, 8]⟩ : GLLine).buf.getD 7 0) :=
  ⟨by decide, by decide, by decide, by decide,
    (setValue_frame_effect 2 3 7 ⟨3, [1, 2, 3, 4, 5, 6, 7, 8]⟩ 9 (by decide)
        (by decide) (by decide) (by decide)).1,
    (setValue_frame_effect 2 3 7 ⟨3, [1, 2, 3, 4, 5, 6, 7, 8]⟩ 9 (by decide)
        (by decide) (by decide) (by decide)).2.1⟩

/-- Claim C4: for a line of power-of-two resolution `2 ^ m` and
`index < 2 ^ m`, `setValueMean(index, val)` adds `val * 2 ^ (-k)` to the
level-`k` ancestor cell of bin `index` (offset
`pyrOffset k + index >> k`), for every level `k` from `0` to `levels - 1`:
the propagation weight starts at `1.0` at the finest level and halves at
each coarser level. -/
theorem setValueMean_adds_weighted (m : ℕ) (L : GLLine) (index : ℕ) (val : ℚ)
    (k : ℕ) (hlen : L.buf.length = 2 * 2 ^ m) (hlev : L.levels = m + 1)
    (hidx : index < 2 ^ m) (hk : k ≤ m) :
    (L.setValueMean index val).buf.getD (pyrOffset (2 ^ m) k + index / 2 ^ k) 0 =
      L.buf.getD (pyrOffset (2 ^ m) k + index / 2 ^ k) 0 + (1/2) ^ k * val := by
  have hbounds : ∀ a ∈ valuePath (m + 1) 0 index (2 ^ m), a < L.buf.length := by
    intro a ha
    have h1 := valuePath_bound m index hidx a ha
    have h2 : (0 : ℕ) < 2 ^ m := pow_pos (by norm_num) m
    omega
  have hpath := valuePath_getD m index k (by omega)
  show (setValueMeanAux L.levels 0 index L.resolution val 1 L.buf).getD _ 0 = _
  rw [hlev, resolution_eq_pow L m hlen, ← hpath,
    setValueMeanAux_getD_elem (m + 1) 0 index (2 ^ m) val 1 L.buf k
      (valuePath_pairwise_ne m index hidx) hbounds (by omega)]
  rw [one_mul]

theorem setValueMean_adds_weighted_witness :
    (⟨2, [5, 7, 7, 0]⟩ : GLLine).buf.length = 2 * 2 ^ 1 ∧
    (⟨2, [5, 7, 7, 0]⟩ : GLLine).levels = 1 + 1 ∧
    1 < 2 ^ 1 ∧ 1 ≤ 1 ∧
    ((⟨2, [5, 7, 7, 0]⟩ : GLLine).setValueMean 1 3).buf.getD
        (pyrOffset (2 ^ 1) 1 + 1 / 2 ^ 1) 0 =
      (⟨2, [5, 7, 7, 0]⟩ : GLLine).buf.getD (pyrOffset (2 ^ 1) 1 + 1 / 2 ^ 1) 0 +
        (1/2) ^ 1 * 3 :=
  ⟨by decide, by decide, by decide, by decide,
    setValueMean_adds_weighted 1 ⟨2, [5, 7, 7, 0]⟩ 1 3 1 (by decide) (by decide)
      (by decide) (by decide)⟩

/-- Claim C1: for every line of power-of-two resolution `2 ^ m` (with the
matching `levels = m + 1`) whose buffer satisfies the max-pyramid invariant,
`setValueMax(index, val)` with `index < 2 ^ m` yields a buffer that still
satisfies the invariant. -/
theorem setValueMax_preserves_pyramidMax (m : ℕ) (L : GLLine) (index : ℕ)
    (val : ℚ) (hlen : L.buf.length = 2 * 2 ^ m) (hlev : L.levels = m + 1)
    (hidx : index < 2 ^ m) (hinv : pyramidMax m L.buf) :
    pyramidMax m (L.setValueMax index val).buf := by
  intro k i hk hi
  have hchar := setValueMax_getD_char m L index val hlen hlev hidx
  have hmem : ∀ j t, j ≤ m → t < 2 ^ (m - j) →
      (pyrOffset (2 ^ m) j + t ∈ valuePath (m + 1) 0 index (2 ^ m) ↔
        t = index / 2 ^ j) := by
    intro j t hj ht
    rw [mem_valuePath_iff]
    constructor
    · rintro ⟨k', hk', heq⟩
      obtain ⟨h1, h2⟩ := level_pos_inj m j k' t (index / 2 ^ k') hj hk' ht
        (div_lt_pow_sub m k' index hk' hidx) heq
      subst h1
      exact h2
    · rintro rfl
      exact ⟨j, hj, rfl⟩
  have hpow : (2 : ℕ) ^ (m - k) = 2 * 2 ^ (m - (k + 1)) := by
    rw [← pow_succ']
    congr 1
    omega
  have hdd : index / 2 ^ (k + 1) = index / 2 ^ k / 2 := by
    rw [Nat.div_div_eq_div_mul, ← pow_succ]
  have hP := hmem (k + 1) i (by omega) hi
  have hC0 := hmem k (2 * i) (by omega) (by omega)
  have hC1 := hmem k (2 * i + 1) (by omega) (by omega)
  rw [hchar, hchar, hchar]
  by_cases hcase : i = index / 2 ^ (k + 1)
  · rw [if_pos (hP.mpr hcase)]
    have hsplit : index / 2 ^ k = 2 * i ∨ index / 2 ^ k = 2 * i + 1 := by omega
    rcases hsplit with hc | hc
    · rw [if_pos (hC0.mpr hc.symm),
        if_neg (fun hmem1 => by have := hC1.mp hmem1; omega),
        hinv k i hk hi, ← max_assoc]
    · rw [if_neg (fun hmem0 => by have := hC0.mp hmem0; omega),
        if_pos (hC1.mpr hc.symm), hinv k i hk hi, max_left_comm]
  · rw [if_neg (fun h => hcase (hP.mp h)),
      if_neg (fun h => by have := hC0.mp h; omega),
      if_neg (fun h => by have := hC1.mp h; omega)]
    exact hinv k i hk hi

theorem setValueMax_preserves_pyramidMax_witness :
    (⟨2, [5, 7, 7, 0]⟩ : GLLine).buf.length = 2 * 2 ^ 1 ∧
    (⟨2, [5, 7, 7, 0]⟩ : GLLine).levels = 1 + 1 ∧
    1 < 2 ^ 1 ∧
    pyramidMax 1 ((⟨2, [5, 7, 7, 0]⟩ : GLLine).setValueMax 1 9).buf :=
  ⟨by decide, by decide, by decide,
    setValueMax_preserves_pyramidMax 1 ⟨2, [5, 7, 7, 0]⟩ 1 9 (by decide)
      (by decide) (by decide)
      (by
        intro k i hk hi
        have hk0 : k = 0 := by omega
        subst hk0
        norm_num at hi
        have hi0 : i = 0 := by omega
        subst hi0
        decide)⟩

/-! ### Bin-by-bin ingestion vs bulk `assignMax` -/

theorem setAllMax_levels : ∀ (vs : List ℚ) (L : GLLine) (i0 : ℕ),
    (setAllMax L i0 vs).levels = L.levels := by
  intro vs
  induction vs with
  | nil => intro L i0; rfl
  | cons v vs ih => intro L i0; exact ih (L.setValueMax i0 v) (i0 + 1)

theorem setAllMax_length : ∀ (vs : List ℚ) (L : GLLine) (i0 : ℕ),
    (setAllMax L i0 vs).buf.length = L.buf.length := by
  intro vs
  induction vs with
  | nil => intro L i0; rfl
  | cons v vs ih =>
      intro L i0
      rw [show setAllMax L i0 (v :: vs) = setAllMax (L.setValueMax i0 v) (i0 + 1) vs
          from rfl,
        ih (L.setValueMax i0 v) (i0 + 1), setValueMax_buf_length]

theorem setValueMax_getD_level0 (m : ℕ) (L : GLLine) (index q : ℕ) (val : ℚ)
    (hlen : L.buf.length = 2 * 2 ^ m) (hlev : L.levels = m + 1)
    (hidx : index < 2 ^ m) (hq : q < 2 ^ m) :
    (L.setValueMax index val).buf.getD q 0 =
      if q = index then max val (L.buf.getD q 0) else L.buf.getD q 0 := by
  rw [setValueMax_getD_char m L index val hlen hlev hidx q]
  by_cases hq2 : q = index
  · subst hq2
    rw [if_pos (index_mem_valuePath m q), if_pos rfl]
  · rw [if_neg hq2, if_neg ?_]
    intro hmemq
    obtain ⟨k, hk, rfl⟩ := (mem_valuePath_iff m index _).mp hmemq
    match k with
    | 0 => exact hq2 (by simp [pyrOffset])
    | k' + 1 =>
        have h1 : pyrOffset (2 ^ m) 1 ≤ pyrOffset (2 ^ m) (k' + 1) :=
          pyrOffset_mono _ (by omega)
        have h2 : pyrOffset (2 ^ m) 1 = 2 ^ m := by
          rw [pyrOffset_succ]
          simp [pyrOffset]
        have h3 : pyrOffset (2 ^ m) (k' + 1) ≤
            pyrOffset (2 ^ m) (k' + 1) + index / 2 ^ (k' + 1) :=
          Nat.le_add_right _ _
        omega

theorem setAllMax_getD : ∀ (vs : List ℚ) (L : GLLine) (i0 m : ℕ),
    L.buf.length = 2 * 2 ^ m → L.levels = m + 1 → i0 + vs.length ≤ 2 ^ m →
    ∀ q, q < 2 ^ m →
    (setAllMax L i0 vs).buf.getD q 0 =
      if i0 ≤ q ∧ q < i0 + vs.length then
        max (vs.getD (q - i0) 0) (L.buf.getD q 0)
      else L.buf.getD q 0 := by
  intro vs
  induction vs with
  | nil =>
      intro L i0 m hlen hlev hle q hq
      rw [show setAllMax L i0 [] = L from rfl, if_neg (by simp)]
  | cons v vs ih =>
      intro L i0 m hlen hlev hle q hq
      rw [List.length_cons] at hle
      rw [show setAllMax L i0 (v :: vs) = setAllMax (L.setValueMax i0 v) (i0 + 1) vs
          from rfl,
        ih (L.setValueMax i0 v) (i0 + 1) m
          (by rw [setValueMax_buf_length]; exact hlen) hlev (by omega) q hq,
        List.length_cons]
      have hi0 : i0 < 2 ^ m := by omega
      by_cases h1 : i0 + 1 ≤ q ∧ q < i0 + 1 + vs.length
      · rw [if_pos h1, if_pos (by omega),
          setValueMax_getD_level0 m L i0 q v hlen hlev hi0 hq,
          if_neg (by omega),
          show q - i0 = (q - (i0 + 1)) + 1 from by omega, List.getD_cons_succ]
      · rw [if_neg h1]
        by_cases h2 : q = i0
        · subst h2
          rw [setValueMax_getD_level0 m L q q v hlen hlev hi0 hq, if_pos rfl,
            if_pos (by omega), Nat.sub_self, List.getD_cons_zero]
        · rw [setValueMax_getD_level0 m L i0 q v hlen hlev hi0 hq, if_neg h2,
            if_neg (by omega)]

theorem setResolution_levels_pow (m : ℕ) :
    (GLLine.setResolution (2 ^ m)).levels = m + 1 := by
  simp only [GLLine.setResolution]
  rw [Nat.clog_pow 2 m (by norm_num)]

theorem setResolution_length_pow (m : ℕ) :
    (GLLine.setResolution (2 ^ m)).buf.length = 2 * 2 ^ m := by
  simp only [GLLine.setResolution, GLLine.allocationFor, List.length_replicate]
  omega

theorem setResolution_getD (res q : ℕ) :
    (GLLine.setResolution res).buf.getD q 0 = 0 := by
  simp [GLLine.setResolution, List.getD_eq_getElem?_getD]

/-- Claim C2, counterexample: with resolution `2` and the (negative) value
sequence `[-1, -1]`, bin-by-bin `setValueMax` on a freshly zeroed line
leaves the finest level at `[0, 0]` (each write is
`fmaxf(val, 0) = 0`), while `assignMax` overwrites it with `[-1, -1]`. -/
theorem setAllMax_ne_assignMax_finest :
    (setAllMax (GLLine.setResolution (2 ^ 1)) 0 [-1, -1]).buf.take (2 ^ 1) ≠
      ((GLLine.setResolution (2 ^ 1)).assignMax [-1, -1]).buf.take (2 ^ 1) := by
  have hL : GLLine.setResolution (2 ^ 1) = ⟨2, [0, 0, 0, 0]⟩ := by
    simp only [GLLine.setResolution, GLLine.allocationFor]
    rw [Nat.clog_pow 2 1 (by norm_num)]
    decide
  rw [hL]
  decide

/-- Claim C2 (amended): for every power-of-two resolution `2 ^ m` and every
sequence of `2 ^ m` *non-negative* values, applying
`setValueMax(i, values[i])` bin-by-bin to a freshly `setResolution`-zeroed
line produces the same finest level (the first `resolution` buffer cells) as
`assignMax(values)` on a freshly zeroed line.  (Without the non-negativity
restriction the claim fails: on a zeroed line `setValueMax` combines with
the existing `0` via `fmaxf`, clamping negative values to `0`, while
`assignMax` overwrites.) -/
theorem setAllMax_eq_assignMax_finest (m : ℕ) (values : List ℚ)
    (hval : values.length = 2 ^ m) (hnn : ∀ v ∈ values, 0 ≤ v) :
    (setAllMax (GLLine.setResolution (2 ^ m)) 0 values).buf.take (2 ^ m) =
      ((GLLine.setResolution (2 ^ m)).assignMax values).buf.take (2 ^ m) := by
  have hlev := setResolution_levels_pow m
  have hlen := setResolution_length_pow m
  have hRHS : ((GLLine.setResolution (2 ^ m)).assignMax values).buf.take (2 ^ m) =
      values := by
    simp only [GLLine.assignMax, hlev]
    rw [show buildMax (m + 1) values = values ++ buildMax m (pairMax values)
        from rfl,
      List.append_assoc, List.take_left' hval]
  rw [hRHS]
  apply List.ext_getElem
  · rw [List.length_take, setAllMax_length, hlen, hval]
    have h2 : (0 : ℕ) < 2 ^ m := pow_pos (by norm_num) m
    omega
  · intro q h1 h2
    rw [List.getElem_take,
      ← List.getD_eq_getElem _ 0 (by rw [setAllMax_length, hlen]; omega),
      setAllMax_getD values (GLLine.setResolution (2 ^ m)) 0 m hlen hlev
        (by omega) q (by omega),
      if_pos ⟨Nat.zero_le q, by omega⟩, Nat.sub_zero, setResolution_getD,
      List.getD_eq_getElem values 0 (by omega)]
    exact max_eq_left (hnn _ (List.getElem_mem _))

theorem setAllMax_eq_assignMax_finest_witness :
    ([1, 2] : List ℚ).length = 2 ^ 1 ∧
    (∀ v ∈ ([1, 2] : List ℚ), 0 ≤ v) ∧
    (setAllMax (GLLine.setResolution (2 ^ 1)) 0 [1, 2]).buf.take (2 ^ 1) =
      ((GLLine.setResolution (2 ^ 1)).assignMax [1, 2]).buf.take (2 ^ 1) :=
  ⟨by decide, by decide, setAllMax_eq_assignMax_finest 1 [1, 2] (by decide) (by decide)⟩

/-! ### `reduceMean` level-0 bins -/

theorem sum_take_drop : ∀ (b a : ℕ) (l : List ℚ), a + b ≤ l.length →
    ((l.drop a).take b).sum = ∑ j ∈ Finset.range b, l.getD (a + j) 0 := by
  intro b
  induction b with
  | zero => intro a l _; simp
  | succ b ih =>
      intro a l h
      have ha : a < l.length := by omega
      rw [List.drop_eq_getElem_cons ha, List.take_succ_cons, List.sum_cons,
        ih (a + 1) l (by omega), Finset.sum_range_succ']
      have h2 : ∑ j ∈ Finset.range b, l.getD (a + 1 + j) 0 =
          ∑ j ∈ Finset.range b, l.getD (a + (j + 1)) 0 :=
        Finset.sum_congr rfl fun j _ => by rw [show a + 1 + j = a + (j + 1) by omega]
      rw [h2, Nat.add_zero, List.getD_eq_getElem l 0 ha]
      exact add_comm _ _

/-- Claim C5: for a line of power-of-two resolution `2 ^ m` and an input
array of `length ≥ resolution` values, after `reduceMean(values, length)`
the level-0 bin `i` (buffer offset `i`, for `i < resolution`) equals the
arithmetic mean of `values[i*r .. i*r+r-1]` with `r = length / resolution`. -/
theorem reduceMean_level0_mean (m : ℕ) (L : GLLine) (values : List ℚ) (i : ℕ)
    (hlen : L.buf.length = 2 * 2 ^ m) (hlev : L.levels = m + 1)
    (hval : 2 ^ m ≤ values.length) (hi : i < 2 ^ m) :
    (L.reduceMean values).buf.getD i 0 =
      (∑ j ∈ Finset.range (values.length / 2 ^ m),
          values.getD (i * (values.length / 2 ^ m) + j) 0) /
        ((values.length / 2 ^ m : ℕ) : ℚ) := by
  have hres := resolution_eq_pow L m hlen
  simp only [GLLine.reduceMean, hlev, hres]
  rw [show buildMean (m + 1) ((List.range (2 ^ m)).map fun i =>
        ((values.drop (i * (values.length / 2 ^ m))).take
            (values.length / 2 ^ m)).sum /
          ((values.length / 2 ^ m : ℕ) : ℚ)) =
      ((List.range (2 ^ m)).map fun i =>
        ((values.drop (i * (values.length / 2 ^ m))).take
            (values.length / 2 ^ m)).sum /
          ((values.length / 2 ^ m : ℕ) : ℚ)) ++
        buildMean m (pairMean ((List.range (2 ^ m)).map fun i =>
          ((values.drop (i * (values.length / 2 ^ m))).take
              (values.length / 2 ^ m)).sum /
            ((values.length / 2 ^ m : ℕ) : ℚ))) from rfl,
    List.append_assoc,
    List.getD_append _ _ _ _ (by simpa using hi),
    List.getD_eq_getElem _ _ (by simpa using hi)]
  simp only [List.getElem_map, List.getElem_range]
  have h1 : values.length / 2 ^ m * 2 ^ m ≤ values.length :=
    Nat.div_mul_le_self _ _
  have h2 : (i + 1) * (values.length / 2 ^ m) ≤ 2 ^ m * (values.length / 2 ^ m) :=
    Nat.mul_le_mul_right _ (by omega)
  have h3 : i * (values.length / 2 ^ m) + values.length / 2 ^ m =
      (i + 1) * (values.length / 2 ^ m) := by ring
  have h4 : 2 ^ m * (values.length / 2 ^ m) = values.length / 2 ^ m * 2 ^ m := by
    ring
  rw [sum_take_drop (values.length / 2 ^ m) (i * (values.length / 2 ^ m)) values
      (by omega)]

theorem reduceMean_level0_mean_witness :
    (⟨2, List.replicate 4 0⟩ : GLLine).buf.length = 2 * 2 ^ 1 ∧
    (⟨2, List.replicate 4 0⟩ : GLLine).levels = 1 + 1 ∧
    2 ^ 1 ≤ ([1, 2, 3, 4] : List ℚ).length ∧ 1 < 2 ^ 1 ∧
    ((⟨2, List.replicate 4 0⟩ : GLLine).reduceMean [1, 2, 3, 4]).buf.getD 1 0 =
      (∑ j ∈ Finset.range (([1, 2, 3, 4] : List ℚ).length / 2 ^ 1),
          ([1, 2, 3, 4] : List ℚ).getD
            (1 * (([1, 2, 3, 4] : List ℚ).length / 2 ^ 1) + j) 0) /
        ((([1, 2, 3, 4] : List ℚ).length / 2 ^ 1 : ℕ) : ℚ) :=
  ⟨by decide, by decide, by decide, by decide,
    reduceMean_level0_mean 1 ⟨2, List.replicate 4 0⟩ [1, 2, 3, 4] 1 (by decide)
      (by decide) (by decide) (by decide)⟩
